import Mathlib

/-!
# Verification of the `semantic-mail` core

A shallow embedding, in Lean 4, of the core of the `semantic-mail`
repository: the multi-provider embedding index.  Python strings are
modelled as `List Char`, datetimes as abstract `Nat` ticks, floats as `ℚ`,
and the external Chroma collection as an id-keyed store with exactly-once
semantics per id (duplicate-id inserts are ignored by the index, per its
contract).  Each definition is translated from the corresponding Python
function; theorems settle the specification claims about them.
-/

namespace SemanticMail

/-! ## Python string primitives

Python `str.replace(a, b)` with single-character arguments is a character
map.  With a multi-character pattern it replaces all non-overlapping
occurrences, scanning left to right and continuing after each replaced
occurrence.  The multi-character version is written with a fuel argument
(initialised to the string length) so that it is structurally recursive
and evaluates inside the kernel.
-/

/-- Python `s.replace(a, b)` for single characters `a`, `b`. -/
def pyReplaceChar (a b : Char) (s : List Char) : List Char :=
  s.map fun c => if c = a then b else c

/-- Worker for `pyReplaceSub`, structurally recursive on the fuel. -/
def pyReplaceSubAux (p r : List Char) : Nat → List Char → List Char
  | 0, s => s
  | _ + 1, [] => []
  | n + 1, c :: cs =>
    if p ≠ [] ∧ p.isPrefixOf (c :: cs) then
      r ++ pyReplaceSubAux p r n ((c :: cs).drop p.length)
    else
      c :: pyReplaceSubAux p r n cs

/-- Python `s.replace(p, r)` for a string pattern `p`: replaces every
non-overlapping occurrence of `p` in `s` by `r`, scanning left to right. -/
def pyReplaceSub (p r s : List Char) : List Char :=
  pyReplaceSubAux p r s.length s

/-- `containsSub p s` decides whether the pattern `p` occurs contiguously
inside `s` (Python's `p in s`). -/
def containsSub (p : List Char) : List Char → Bool
  | [] => p.isEmpty
  | c :: cs => p.isPrefixOf (c :: cs) || containsSub p cs

/-- Joining segments with a single-character separator; used to talk about
"colon-delimited" versus "dash-delimited" spellings of a model name. -/
def joinSep (sep : Char) : List (List Char) → List Char
  | [] => []
  | [s] => s
  | s :: s' :: rest => s ++ sep :: joinSep sep (s' :: rest)

/-! ## Embedder model identities

From `src/embedding/ollama_embedder.py` (`get_model_id`):
`return f"ollama_{self.model_name.replace(':', '_')}"`,
and `src/embedding/openai_embedder.py` (`get_model_id`):
`return f"openai_{self.model_name.replace('-', '_')}"`.
-/

/-- `OllamaEmbedder.get_model_id`. -/
def ollamaGetModelId (modelName : List Char) : List Char :=
  "ollama_".toList ++ pyReplaceChar ':' '_' modelName

/-- `OpenAIEmbedder.get_model_id`. -/
def openaiGetModelId (modelName : List Char) : List Char :=
  "openai_".toList ++ pyReplaceChar '-' '_' modelName

/-! ## The resolver's decoding of a collection's `model_id`

From `src/embedding/embedder_factory.py` (`get_smart_embedder`): the model
name is recovered from the winning collection's `model_id` with
`model_id.replace('ollama_', '').replace('_', ':')` (resp.
`model_id.replace('openai_', '').replace('_', '-')`), and an embedder is
constructed from it; the dispatch is on `model_id.startswith(...)`.
-/

/-- `actual_model` recovered from an `ollama_*` collection `model_id`. -/
def ollamaActualModel (modelId : List Char) : List Char :=
  pyReplaceChar '_' ':' (pyReplaceSub "ollama_".toList [] modelId)

/-- `actual_model` recovered from an `openai_*` collection `model_id`. -/
def openaiActualModel (modelId : List Char) : List Char :=
  pyReplaceChar '_' '-' (pyReplaceSub "openai_".toList [] modelId)

/-- The `get_model_id()` of the embedder that `get_smart_embedder`
constructs for a winning collection with the given `model_id`; `none` in
the fallback branch (no recognised provider marker), where the constructed
embedder depends on ambient settings rather than on the collection. -/
def resolvedEmbedderModelId (modelId : List Char) : Option (List Char) :=
  if "ollama_".toList.isPrefixOf modelId then
    some (ollamaGetModelId (ollamaActualModel modelId))
  else if "openai_".toList.isPrefixOf modelId then
    some (openaiGetModelId (openaiActualModel modelId))
  else
    none


/-! ## Data model (`src/models.py`)

`Email` keeps the fields that the core reads.  Datetimes are modelled as
their ISO strings where only carried along (`date`), attachments by their
count (only `len(email.attachments)` is read).
-/

/-- The `Email` pydantic model, restricted to the fields the core reads. -/
structure Email where
  id : String
  threadId : String
  subject : String
  sender : String
  recipients : List String
  dateIso : String
  body : String
  labels : List String
  snippet : String
  attachmentsCount : Nat
deriving DecidableEq

/-- `Email.content_for_embedding`:
`f"Subject: {subject}\nFrom: {sender}\nTo: {', '.join(recipients)}\n\n{body}"`. -/
def Email.contentForEmbedding (e : Email) : String :=
  "Subject: " ++ e.subject ++ "\nFrom: " ++ e.sender ++ "\nTo: "
    ++ String.intercalate ", " e.recipients ++ "\n\n" ++ e.body

/-- Python `s[:n]` on a string. -/
def pyTake (n : Nat) (s : String) : String :=
  String.mk (s.toList.take n)

/-- The per-email metadata dict built by `add_emails` (the `labels` value
is `json.dumps(email.labels)`; the list itself stands for its JSON
encoding). -/
structure EmailMeta where
  subject : String
  sender : String
  date : String
  threadId : String
  snippet : String
  labels : List String
  hasAttachments : Bool
deriving DecidableEq

/-- One stored member of a Chroma collection: document, embedding vector
(floats as `ℚ`) and metadata, keyed by the email id. -/
structure Entry where
  id : String
  document : String
  embedding : List ℚ
  metadata : EmailMeta
deriving DecidableEq

/-- The state `EmailVectorStore` manipulates: the collection's members,
plus the separate per-collection sync-metadata file
(`metadata/{collection_name}_sync.json`); `none` = file absent, and the
recorded `last_sync_date` is an abstract `Nat` tick. -/
structure StoreState where
  entries : List Entry
  syncDate : Option Nat
deriving DecidableEq

/-- `collection.count()`. -/
def memberCount (st : StoreState) : Nat :=
  st.entries.length

/-- `get_last_sync_date`: reads the sync-metadata file; absent file (or
absent key) gives `None`. -/
def getLastSyncDate (st : StoreState) : Option Nat :=
  st.syncDate

/-- Whether an id is already present in the collection. -/
def containsId (store : List Entry) (i : String) : Bool :=
  store.any fun e => e.id == i

/-! ## Batching

`add_emails` works in fixed-size batches of `batch_size = 100`, both for
the existence check and for the inserts; `OpenAIEmbedder` uses the same
chunk size for embedding requests.  The chunking function is written with
a fuel argument (the list length) to be structurally recursive.
-/

/-- Worker for `chunk100`. -/
def chunk100Aux : Nat → List α → List (List α)
  | 0, _ => []
  | _ + 1, [] => []
  | n + 1, c :: cs => (c :: cs).take 100 :: chunk100Aux n ((c :: cs).drop 100)

/-- `range(0, len(l), 100)` slicing: the list cut into chunks of 100. -/
def chunk100 (l : List α) : List (List α) :=
  chunk100Aux l.length l

/-! ## `EmailVectorStore.add_emails` -/

/-- The entry built for one (email, embedding) pair that survives the
`embedding is None` filter. -/
def buildEntry (e : Email) (emb : List ℚ) : Entry :=
  { id := e.id
    document := e.contentForEmbedding
    embedding := emb
    metadata :=
      { subject := e.subject
        sender := e.sender
        date := e.dateIso
        threadId := e.threadId
        snippet := pyTake 500 e.snippet
        labels := e.labels
        hasAttachments := decide (0 < e.attachmentsCount) } }

/-- First loop of `add_emails`: drop pairs whose embedding is `None`,
build parallel documents/embeddings/metadatas/ids (kept here as one list
of entries). -/
def buildEntries (pairs : List (Email × Option (List ℚ))) : List Entry :=
  pairs.filterMap fun pe => pe.2.map (buildEntry pe.1)

/-- The dedup loop of `add_emails`: for each batch of 100 ids,
`collection.get(ids=batch_ids)` yields the existing ids of the batch; the
batch's entries whose id is not among them are appended to the new-entry
accumulator, the others are counted as duplicates. -/
def dedupPhase (store : List Entry) (entries : List Entry) : List Entry × Nat :=
  (chunk100 entries).foldl
    (fun acc batch =>
      (acc.1 ++ batch.filter
         (fun e => !(((batch.map (·.id)).filter (containsId store)).contains e.id)),
       acc.2 + (batch.filter
         (fun e => ((batch.map (·.id)).filter (containsId store)).contains e.id)).length))
    ([], 0)

/-- One `collection.add(...)` call on a batch.  The index contract gives
exactly-once semantics per id: an insert whose id is already present in
the collection is ignored (tolerated, not fatal). -/
def storeAdd (store : List Entry) (batch : List Entry) : List Entry :=
  batch.foldl (fun s e => if containsId s e.id then s else s ++ [e]) store

/-- The outcome counters of one `add_emails` call: emails skipped for a
missing embedding, duplicates skipped by the dedup check, entries passed
to `collection.add`, and whether `update_last_sync_date` was invoked. -/
structure AddResult where
  skippedNoEmbedding : Nat
  duplicates : Nat
  inserted : Nat
  syncUpdated : Bool
deriving DecidableEq

/-- `EmailVectorStore.add_emails` on the happy path (no index failure):
filter out absent embeddings, batch-check existence, insert only new ids
in batches of 100, and call `update_last_sync_date` (which writes
`last_sync_date = now` to the sync file) only when at least one new entry
was inserted. -/
def addEmailsCore (st : StoreState) (pairs : List (Email × Option (List ℚ)))
    (now : Nat) : StoreState × AddResult :=
  let entries := buildEntries pairs
  let skipped := pairs.countP fun pe => pe.2.isNone
  if entries.isEmpty then
    (st, ⟨skipped, 0, 0, false⟩)
  else
    let dd := dedupPhase st.entries entries
    if dd.1.isEmpty then
      (st, ⟨skipped, dd.2, 0, false⟩)
    else
      ({ entries := (chunk100 dd.1).foldl storeAdd st.entries
         syncDate := some now },
       ⟨skipped, dd.2, dd.1.length, true⟩)

/-- `add_emails` with the index backend's failure made explicit: when
`collection.add` raises (`indexAddFails`, only reachable if some batch is
actually inserted), the surrounding `except` logs and re-raises, so the
call propagates the error. -/
def addEmailsRun (indexAddFails : Bool) (st : StoreState)
    (pairs : List (Email × Option (List ℚ))) (now : Nat) :
    Except String (StoreState × AddResult) :=
  let entries := buildEntries pairs
  if entries.isEmpty then
    Except.ok (addEmailsCore st pairs now)
  else if (dedupPhase st.entries entries).1.isEmpty then
    Except.ok (addEmailsCore st pairs now)
  else if indexAddFails then
    Except.error "Error adding emails to vector store"
  else
    Except.ok (addEmailsCore st pairs now)

/-! ## `EmailVectorStore.search` and `clear_collection` -/

/-- `EmailVectorStore.search`: the `collection.query` reply is unpacked
into `(id, distance, metadata)` triples in the index's order; **any**
exception from the index is caught, logged, and turned into `[]`. -/
def vectorStoreSearch
    (outcome : Except String (List (String × ℚ × EmailMeta))) :
    List (String × ℚ × EmailMeta) :=
  match outcome with
  | Except.error _ => []
  | Except.ok hits => hits

/-- `clear_collection`: `delete_collection` then `_init_collection`
recreates an empty collection; the sync-metadata file is a separate path
(`_get_sync_metadata_path`) and is not touched. -/
def clearCollection (st : StoreState) : StoreState :=
  { entries := [], syncDate := st.syncDate }

/-! ## `EmailSearcher.search` (`src/search/searcher.py`)

The searcher embeds the query (`None` on failure, in which case it
returns `[]` without querying), passes it to the vector store, and then,
for each `(id, distance, metadata)` hit in the index's order, looks the
email document up by id (`get_email_by_id`; hits whose lookup fails are
dropped) and appends a result with `score = 1.0 - distance`.  No
re-ordering of the hits takes place.
-/

/-- One `SearchResult` (from `src/models.py`), restricted to the fields
the searcher computes; the reconstructed `Email` is represented by the id
and the joined document body. -/
structure SearchResultM where
  emailId : String
  body : String
  score : ℚ
  distance : ℚ
deriving DecidableEq

/-- `EmailSearcher.search`, parametrised by the query-embedding outcome,
the id→document lookup (`get_email_by_id`), and the vector store's query
outcome. -/
def searcherSearch (queryEmbedding : Option (List ℚ))
    (lookup : String → Option String)
    (indexOutcome : Except String (List (String × ℚ × EmailMeta))) :
    List SearchResultM :=
  match queryEmbedding with
  | none => []
  | some _ =>
    (vectorStoreSearch indexOutcome).foldl
      (fun acc h =>
        match lookup h.1 with
        | some body => acc ++ [⟨h.1, body, 1 - h.2.1, h.2.1⟩]
        | none => acc)
      []

/-! ## Collection matching and smart selection
(`EmailVectorStore.find_matching_collections`,
`get_smart_embedder` in `src/embedding/embedder_factory.py`)
-/

/-- One existing collection as seen by the resolver: its name, its
metadata's `model_id`, and its `get_collection_email_count()` (recorded
here as an attribute of the collection). -/
structure CollInfo where
  name : String
  modelId : List Char
  count : Nat
deriving DecidableEq

/-- `EmailVectorStore.find_matching_collections`: filter all collections
by the optional provider/model constraints, mirroring the if/elif chain
of the source. -/
def findMatchingCollections (provider : Option (List Char))
    (model : Option (List Char)) (colls : List CollInfo) : List CollInfo :=
  colls.filter fun c =>
    match model with
    | some m =>
      if provider = some "ollama".toList then
        c.modelId == "ollama_".toList ++ pyReplaceChar ':' '_' m
      else if provider = some "openai".toList then
        c.modelId == "openai_".toList ++ pyReplaceChar '-' '_' m
      else if provider = none then
        (c.modelId == "ollama_".toList ++ pyReplaceChar ':' '_' m)
          || (c.modelId == "openai_".toList ++ pyReplaceChar '-' '_' m)
      else
        false
    | none =>
      match provider with
      | some p => (p ++ ['_']).isPrefixOf c.modelId
      | none => true

/-- One step of the selection fold: keep the earlier collection unless the
new one has a strictly larger count. -/
def pickBestStep (acc : Option CollInfo) (c : CollInfo) : Option CollInfo :=
  match acc with
  | none => some c
  | some b => if b.count < c.count then some c else some b

/-- The selection `get_smart_embedder` performs on a multiple-match list:
`matches.sort(key=email_count, reverse=True)` (a stable descending sort)
followed by `matches[0]` — i.e. the earliest match of maximal count. -/
def pickBest (ms : List CollInfo) : Option CollInfo :=
  ms.foldl pickBestStep none

/-! ## Batch embedding (`generate_embeddings_batch`) -/

/-- `OpenAIEmbedder.generate_embeddings_batch`: the texts are cut into
chunks of 100; for each chunk one API call is made (`api`, `none` models
the call raising); on success its vectors are appended, on failure
`[None] * len(batch)` is appended, and the loop continues with the next
chunk either way. -/
def openaiEmbeddingsBatch (api : List String → Option (List (List ℚ)))
    (texts : List String) : List (Option (List ℚ)) :=
  (chunk100 texts).foldl
    (fun acc batch =>
      match api batch with
      | some vecs => acc ++ vecs.map some
      | none => acc ++ List.replicate batch.length none)
    []

/-- `OllamaEmbedder.generate_embeddings_batch`: one `generate_embedding`
call per text (which returns `None` instead of raising on failure),
results appended in order. -/
def ollamaEmbeddingsBatch (embedOne : String → Option (List ℚ))
    (texts : List String) : List (Option (List ℚ)) :=
  texts.foldl (fun acc t => acc ++ [embedOne t]) []

/-- The contribution of one chunk to the openai batch output (proof-side
abbreviation of the two branches of the loop body). -/
def chunkOutcome (api : List String → Option (List (List ℚ)))
    (batch : List String) : List (Option (List ℚ)) :=
  match api batch with
  | some vecs => vecs.map some
  | none => List.replicate batch.length none

/-! ## Concrete sample inputs used by the witnesses -/

/-- A sample email. -/
def sampleEmail : Email :=
  { id := "id1", threadId := "t1", subject := "hello", sender := "a@b"
    recipients := ["c@d"], dateIso := "2024-01-01T00:00:00"
    body := "body", labels := ["INBOX"], snippet := "snip"
    attachmentsCount := 0 }

/-- A second sample email with a distinct id. -/
def sampleEmail2 : Email :=
  { id := "id2", threadId := "t2", subject := "re: hello", sender := "c@d"
    recipients := ["a@b"], dateIso := "2024-01-02T00:00:00"
    body := "body2", labels := [], snippet := "snip2"
    attachmentsCount := 1 }

/-! ## Lemmas about the string primitives -/

/-- A list is a prefix (in the `isPrefixOf` sense) of itself followed by
anything. -/
theorem isPrefixOf_append_self : ∀ (p s : List Char), p.isPrefixOf (p ++ s) = true
  | [], _ => by simp [List.isPrefixOf]
  | c :: p, s => by
    simp [List.isPrefixOf, isPrefixOf_append_self p s]

/-- If the pattern does not occur in the string, substring replacement
leaves the string unchanged, whatever the fuel. -/
theorem pyReplaceSubAux_of_not_containsSub (p r : List Char) :
    ∀ (n : Nat) (s : List Char), containsSub p s = false →
      pyReplaceSubAux p r n s = s := by
  intro n
  induction n with
  | zero => intro s _; rfl
  | succ n ih =>
    intro s hs
    cases s with
    | nil => rfl
    | cons c cs =>
      simp only [containsSub, Bool.or_eq_false_iff] at hs
      simp [pyReplaceSubAux, hs.1, ih cs hs.2]

/-- Replacing the pattern in `p ++ s` when `p` occurs nowhere in `s`:
exactly the leading occurrence is replaced. -/
theorem pyReplaceSub_append_self (p r s : List Char) (hp : p ≠ [])
    (hs : containsSub p s = false) : pyReplaceSub p r (p ++ s) = r ++ s := by
  cases p with
  | nil => exact absurd rfl hp
  | cons q qs =>
    have hpre : (q :: qs).isPrefixOf (q :: (qs ++ s)) = true := by
      have h := isPrefixOf_append_self (q :: qs) s
      rwa [List.cons_append] at h
    show pyReplaceSubAux (q :: qs) r ((q :: qs) ++ s).length ((q :: qs) ++ s) = r ++ s
    simp only [List.cons_append, List.length_cons]
    rw [pyReplaceSubAux]
    simp only [hpre, ne_eq, reduceCtorEq, not_false_eq_true, true_and, if_true]
    have hdrop : (q :: (qs ++ s)).drop (q :: qs).length = s := by
      simp [List.length_cons, List.drop_left]
    rw [hdrop, pyReplaceSubAux_of_not_containsSub _ _ _ _ hs]

/-- Replacing `a` by `b` and back is the identity on strings avoiding `a`. -/
theorem pyReplaceChar_roundtrip (a b : Char) (s : List Char)
    (h : ∀ c ∈ s, c ≠ a) :
    pyReplaceChar a b (pyReplaceChar b a s) = s := by
  unfold pyReplaceChar
  rw [List.map_map]
  have hpt : ∀ c ∈ s,
      ((fun c => if c = a then b else c) ∘ fun c => if c = b then a else c) c
        = id c := by
    intro c hc
    by_cases hcb : c = b
    · subst hcb; simp
    · simp [hcb, h c hc]
  rw [List.map_congr_left hpt, List.map_id]

/-- Single-character replacement distributes over `joinSep`, replacing the
separator itself pointwise. -/
theorem pyReplaceChar_joinSep (a b sep : Char) :
    ∀ segs : List (List Char),
      pyReplaceChar a b (joinSep sep segs)
        = joinSep (if sep = a then b else sep) (segs.map (pyReplaceChar a b))
  | [] => by simp [joinSep, pyReplaceChar]
  | [s] => by simp [joinSep]
  | s :: s' :: rest => by
    have ih := pyReplaceChar_joinSep a b sep (s' :: rest)
    simp only [pyReplaceChar, List.map_cons] at ih ⊢
    simp only [joinSep, List.map_append, List.map_cons]
    rw [ih]

/-! ## Claim C5 — ModelIdentity canonicalization -/

/-- C5, counterexample.  The claim states that within each provider's
namespace a colon-delimited and a dash-delimited spelling of the same
model canonicalize to the identical `get_model_id()` string.  It is false
for both providers: `OllamaEmbedder.get_model_id` only rewrites colons
(dashes survive), and `OpenAIEmbedder.get_model_id` only rewrites dashes
(colons survive), so the spellings `"a:b"` and `"a-b"` yield different
identities under either provider. -/
theorem c5_counterexample :
    ollamaGetModelId "a:b".toList ≠ ollamaGetModelId "a-b".toList
    ∧ openaiGetModelId "a:b".toList ≠ openaiGetModelId "a-b".toList := by
  decide

/-- C5, amended.  For every segmented model name, the provider's own
conventional separator canonicalizes exactly like an underscore: an
ollama name spelled with colons and the same name spelled with
underscores yield the identical `get_model_id()` string, and likewise an
openai name spelled with dashes and with underscores — but colon- versus
dash-delimited spellings need not agree within one provider. -/
theorem c5_separator_canonicalization (segs : List (List Char)) :
    ollamaGetModelId (joinSep ':' segs) = ollamaGetModelId (joinSep '_' segs)
    ∧ openaiGetModelId (joinSep '-' segs) = openaiGetModelId (joinSep '_' segs) := by
  constructor
  · unfold ollamaGetModelId
    rw [pyReplaceChar_joinSep, pyReplaceChar_joinSep]
    congr 1
  · unfold openaiGetModelId
    rw [pyReplaceChar_joinSep, pyReplaceChar_joinSep]
    congr 1

/-! ## Claim C6 — resolver round-trip on model identities -/

/-- C6, counterexample.  The claim asserts the decode/re-encode round trip
on a winning collection's `model_id` is the identity for every model name,
including names containing underscores, dashes, or colons.  It fails: the
ollama model name `"x:ollama:y"` produces collection `model_id`
`"ollama_x_ollama_y"`, but `get_smart_embedder` strips every occurrence of
the substring `"ollama_"` (Python `str.replace`), so the resolver rebuilds
the identity `"ollama_x_y"`, different from the collection's `model_id`. -/
theorem c6_counterexample :
    ollamaGetModelId "x:ollama:y".toList = "ollama_x_ollama_y".toList
    ∧ resolvedEmbedderModelId "ollama_x_ollama_y".toList
        = some "ollama_x_y".toList
    ∧ "ollama_x_y".toList ≠ "ollama_x_ollama_y".toList := by
  decide

/-- C6, amended.  The round trip is the identity on every collection
`model_id` of the form provider-marker ++ suffix whose suffix does not
itself contain the provider marker and does not contain the character the
decoder reintroduces (`':'` for ollama, `'-'` for openai) — in particular
on every `model_id` actually produced by `get_model_id` from a model name
free of the provider marker. -/
theorem c6_model_id_roundtrip (s : List Char) :
    (containsSub "ollama_".toList s = false → (∀ c ∈ s, c ≠ ':') →
      resolvedEmbedderModelId ("ollama_".toList ++ s)
        = some ("ollama_".toList ++ s))
    ∧ (containsSub "openai_".toList s = false → (∀ c ∈ s, c ≠ '-') →
      resolvedEmbedderModelId ("openai_".toList ++ s)
        = some ("openai_".toList ++ s)) := by
  constructor
  · intro hocc hcol
    have hpre : "ollama_".toList.isPrefixOf ("ollama_".toList ++ s) = true :=
      isPrefixOf_append_self _ _
    have hstrip : pyReplaceSub "ollama_".toList [] ("ollama_".toList ++ s) = s := by
      simpa using pyReplaceSub_append_self "ollama_".toList [] s (by decide) hocc
    unfold resolvedEmbedderModelId ollamaActualModel ollamaGetModelId
    simp only [hpre, if_true, hstrip]
    rw [pyReplaceChar_roundtrip ':' '_' s hcol]
  · intro hocc hdash
    have hnotol : "ollama_".toList.isPrefixOf ("openai_".toList ++ s) = false := rfl
    have hpre : "openai_".toList.isPrefixOf ("openai_".toList ++ s) = true :=
      isPrefixOf_append_self _ _
    have hstrip : pyReplaceSub "openai_".toList [] ("openai_".toList ++ s) = s := by
      simpa using pyReplaceSub_append_self "openai_".toList [] s (by decide) hocc
    unfold resolvedEmbedderModelId openaiActualModel openaiGetModelId
    simp only [hnotol, hpre, if_true, Bool.false_eq_true, if_false, hstrip]
    rw [pyReplaceChar_roundtrip '-' '_' s hdash]

/-- C6, witness for the amended round trip at a concrete model id. -/
theorem c6_model_id_roundtrip_witness :
    containsSub "ollama_".toList "nomic_embed_text".toList = false
    ∧ (∀ c ∈ "nomic_embed_text".toList, c ≠ ':')
    ∧ resolvedEmbedderModelId ("ollama_".toList ++ "nomic_embed_text".toList)
        = some ("ollama_".toList ++ "nomic_embed_text".toList) :=
  ⟨by decide, by decide,
    (c6_model_id_roundtrip "nomic_embed_text".toList).1 (by decide) (by decide)⟩

/-! ## Lemmas about batching -/

/-- With enough fuel, flattening the chunks recovers the list. -/
theorem chunk100Aux_flatten :
    ∀ (n : Nat) (l : List α), l.length ≤ n → (chunk100Aux n l).flatten = l := by
  intro n
  induction n with
  | zero =>
    intro l hl
    have hnil : l = [] := List.eq_nil_of_length_eq_zero (Nat.le_zero.mp hl)
    subst hnil; rfl
  | succ n ih =>
    intro l hl
    cases l with
    | nil => rfl
    | cons c cs =>
      have hlen : ((c :: cs).drop 100).length ≤ n := by
        simp only [List.length_drop, List.length_cons] at *
        omega
      simp only [chunk100Aux, List.flatten_cons, ih _ hlen, List.take_append_drop]

/-- Flattening the 100-chunks of a list recovers the list. -/
theorem chunk100_flatten (l : List α) : (chunk100 l).flatten = l :=
  chunk100Aux_flatten l.length l (Nat.le_refl _)

/-- Every chunk has at most 100 elements. -/
theorem chunk100Aux_mem_length :
    ∀ (n : Nat) (l b : List α), b ∈ chunk100Aux n l → b.length ≤ 100 := by
  intro n
  induction n with
  | zero => intro l b hb; cases hb
  | succ n ih =>
    intro l b hb
    cases l with
    | nil => cases hb
    | cons c cs =>
      simp only [chunk100Aux, List.mem_cons] at hb
      rcases hb with h | h
      · subst h
        rw [List.length_take]
        exact Nat.min_le_left _ _
      · exact ih _ _ h

/-- Every 100-chunk of a list has at most 100 elements. -/
theorem chunk100_mem_length (l b : List α) (hb : b ∈ chunk100 l) :
    b.length ≤ 100 :=
  chunk100Aux_mem_length _ _ _ hb

/-! ## Lemmas about the dedup and insert phases of `add_emails` -/

/-- `containsId` decides the existence of an entry with the given id. -/
theorem containsId_iff (store : List Entry) (i : String) :
    containsId store i = true ↔ ∃ e ∈ store, e.id = i := by
  simp [containsId]

/-- For an entry of the batch, membership of its id in the batch's
existing-id set (`collection.get` on the batch ids) is exactly existence
of its id in the collection. -/
theorem dedup_batch_pred (store : List Entry) (batch : List Entry) (e : Entry)
    (he : e ∈ batch) :
    ((batch.map (·.id)).filter (containsId store)).contains e.id
      = containsId store e.id := by
  cases h : containsId store e.id with
  | true =>
    have : e.id ∈ (batch.map (·.id)).filter (containsId store) :=
      List.mem_filter.mpr ⟨List.mem_map_of_mem _ he, h⟩
    exact List.elem_iff.mpr this
  | false =>
    rw [Bool.eq_false_iff]
    intro hcon
    have hmem := List.elem_iff.mp hcon
    have := (List.mem_filter.mp hmem).2
    rw [h] at this
    cases this

/-- The dedup fold over arbitrary batches, in closed form: it filters the
flattened batches by non-existence in the collection and counts the
complement. -/
theorem dedupPhase_foldl (store : List Entry) :
    ∀ (bs : List (List Entry)) (acc : List Entry × Nat),
      bs.foldl
        (fun acc batch =>
          (acc.1 ++ batch.filter
             (fun e => !(((batch.map (·.id)).filter (containsId store)).contains e.id)),
           acc.2 + (batch.filter
             (fun e => ((batch.map (·.id)).filter (containsId store)).contains e.id)).length))
        acc
      = (acc.1 ++ bs.flatten.filter (fun e => !(containsId store e.id)),
         acc.2 + (bs.flatten.filter (fun e => containsId store e.id)).length) := by
  intro bs
  induction bs with
  | nil => intro acc; simp
  | cons b bs ih =>
    intro acc
    rw [List.foldl_cons, ih]
    have h1 : b.filter
        (fun e => !(((b.map (·.id)).filter (containsId store)).contains e.id))
        = b.filter (fun e => !(containsId store e.id)) :=
      List.filter_congr (fun e he => by rw [dedup_batch_pred store b e he])
    have h2 : b.filter
        (fun e => ((b.map (·.id)).filter (containsId store)).contains e.id)
        = b.filter (fun e => containsId store e.id) :=
      List.filter_congr (fun e he => dedup_batch_pred store b e he)
    simp only [h1, h2, List.flatten_cons, List.filter_append, List.length_append,
      List.append_assoc, Nat.add_assoc]

/-- The dedup phase in closed form: new entries are those whose id is not
yet in the collection (in input order), duplicates are counted. -/
theorem dedupPhase_eq (store entries : List Entry) :
    dedupPhase store entries
      = (entries.filter (fun e => !(containsId store e.id)),
         (entries.filter (fun e => containsId store e.id)).length) := by
  unfold dedupPhase
  rw [dedupPhase_foldl]
  simp [chunk100_flatten]

/-- Inserting the chunks one `collection.add` at a time is inserting the
flattened list. -/
theorem foldl_storeAdd_flatten :
    ∀ (bs : List (List Entry)) (store : List Entry),
      bs.foldl storeAdd store = storeAdd store bs.flatten := by
  intro bs
  induction bs with
  | nil => intro store; rfl
  | cons b bs ih =>
    intro store
    rw [List.foldl_cons, ih, List.flatten_cons]
    unfold storeAdd
    rw [List.foldl_append]

/-- Id lookup after appending a single entry. -/
theorem containsId_append_single (store : List Entry) (e : Entry) (i : String) :
    containsId (store ++ [e]) i = (containsId store i || (e.id == i)) := by
  simp [containsId, List.any_append]

/-- Id lookup after an insert: present before, or among the batch ids. -/
theorem containsId_storeAdd :
    ∀ (batch store : List Entry) (i : String),
      containsId (storeAdd store batch) i
        = (containsId store i || batch.any (·.id == i)) := by
  intro batch
  induction batch with
  | nil => intro store i; simp [storeAdd]
  | cons e batch ih =>
    intro store i
    have hstep : storeAdd store (e :: batch)
        = storeAdd (if containsId store e.id then store else store ++ [e]) batch := rfl
    rw [hstep]
    cases h : containsId store e.id with
    | true =>
      rw [if_pos rfl, ih]
      cases hei : e.id == i with
      | true =>
        have : e.id = i := eq_of_beq hei
        subst this
        simp [h]
      | false => simp [hei]
    | false =>
      rw [if_neg (by simp), ih, containsId_append_single, Bool.or_assoc]
      simp [List.any_cons]

theorem mem_storeAdd :
    ∀ (batch store : List Entry) (en : Entry),
      en ∈ storeAdd store batch → en ∈ store ∨ en ∈ batch := by
  intro batch
  induction batch with
  | nil => intro store en h; exact Or.inl h
  | cons e batch ih =>
    intro store en h
    rcases ih (if containsId store e.id then store else store ++ [e]) en h with h' | h'
    · by_cases hc : containsId store e.id = true
      · rw [if_pos hc] at h'
        exact Or.inl h'
      · rw [if_neg hc] at h'
        rcases List.mem_append.mp h' with h'' | h''
        · exact Or.inl h''
        · exact Or.inr (by simp [List.mem_singleton.mp h''])
    · exact Or.inr (List.mem_cons_of_mem _ h')

theorem storeAdd_length :
    ∀ (batch store : List Entry),
      (storeAdd store batch).length
        = store.length
          + ((batch.map (·.id)).toFinset \ (store.map (·.id)).toFinset).card := by
  intro batch
  induction batch with
  | nil => intro store; simp [storeAdd]
  | cons e batch ih =>
    intro store
    have hstep : storeAdd store (e :: batch)
        = storeAdd (if containsId store e.id then store else store ++ [e]) batch := rfl
    rw [hstep]
    cases h : containsId store e.id with
    | true =>
      rw [if_pos rfl, ih]
      have hmem : e.id ∈ (store.map (·.id)).toFinset := by
        rw [List.mem_toFinset]
        rcases (containsId_iff store e.id).mp h with ⟨e', he', hid⟩
        exact List.mem_map.mpr ⟨e', he', hid⟩
      congr 1
      rw [List.map_cons, List.toFinset_cons, Finset.insert_sdiff_of_mem _ hmem]
    | false =>
      rw [if_neg (by simp), ih]
      have hnotmem : e.id ∉ (store.map (·.id)).toFinset := by
        rw [List.mem_toFinset]
        intro hmem
        rcases List.mem_map.mp hmem with ⟨e', he', hid⟩
        have : containsId store e.id = true :=
          (containsId_iff store e.id).mpr ⟨e', he', hid⟩
        rw [h] at this
        cases this
      have hids : ((store ++ [e]).map (·.id)).toFinset
          = insert e.id ((store.map (·.id)).toFinset) := by
        ext x
        simp only [List.mem_toFinset, List.mem_map, List.mem_append,
          List.mem_singleton, Finset.mem_insert]
        constructor
        · rintro ⟨a, ha | rfl, rfl⟩
          · exact Or.inr ⟨a, ha, rfl⟩
          · exact Or.inl rfl
        · rintro (rfl | ⟨a, ha, rfl⟩)
          · exact ⟨e, Or.inr rfl, rfl⟩
          · exact ⟨a, Or.inl ha, rfl⟩
      rw [List.length_append, hids, List.map_cons, List.toFinset_cons]
      have h1 : insert e.id ((batch.map (·.id)).toFinset)
            \ (store.map (·.id)).toFinset
          = insert e.id ((batch.map (·.id)).toFinset
            \ (store.map (·.id)).toFinset) := by
        ext x
        simp only [Finset.mem_sdiff, Finset.mem_insert]
        constructor
        · rintro ⟨hx1 | hx1, hx2⟩
          · exact Or.inl hx1
          · exact Or.inr ⟨hx1, hx2⟩
        · rintro (rfl | ⟨hx1, hx2⟩)
          · exact ⟨Or.inl rfl, hnotmem⟩
          · exact ⟨Or.inr hx1, hx2⟩
      have h2 : (batch.map (·.id)).toFinset
            \ insert e.id ((store.map (·.id)).toFinset)
          = ((batch.map (·.id)).toFinset \ (store.map (·.id)).toFinset).erase e.id := by
        ext x
        simp only [Finset.mem_sdiff, Finset.mem_insert, Finset.mem_erase, not_or]
        tauto
      have h3 : insert e.id ((batch.map (·.id)).toFinset
            \ (store.map (·.id)).toFinset)
          = insert e.id (((batch.map (·.id)).toFinset
            \ (store.map (·.id)).toFinset).erase e.id) := by
        ext x
        simp only [Finset.mem_insert, Finset.mem_erase]
        tauto
      rw [h1, h2, h3, Finset.card_insert_of_not_mem (Finset.not_mem_erase _ _)]
      simp only [List.length_singleton]
      omega

/-! ## `add_emails` in closed form -/

/-- `add_emails`, fully evaluated: the store gains exactly the entries
whose id was absent, the watermark is rewritten to `now` exactly when some
entry was inserted, and the counters are the sizes of the corresponding
filters. -/
theorem addEmailsCore_closed (st : StoreState)
    (pairs : List (Email × Option (List ℚ))) (now : Nat) :
    addEmailsCore st pairs now
      = ({ entries := storeAdd st.entries
             ((buildEntries pairs).filter fun e => !(containsId st.entries e.id)),
           syncDate :=
             if ((buildEntries pairs).filter fun e =>
                 !(containsId st.entries e.id)).isEmpty
             then st.syncDate else some now },
         { skippedNoEmbedding := pairs.countP fun pe => pe.2.isNone,
           duplicates := ((buildEntries pairs).filter fun e =>
             containsId st.entries e.id).length,
           inserted := ((buildEntries pairs).filter fun e =>
             !(containsId st.entries e.id)).length,
           syncUpdated := !((buildEntries pairs).filter fun e =>
             !(containsId st.entries e.id)).isEmpty }) := by
  cases hE : (buildEntries pairs).isEmpty with
  | true =>
    have hnil := List.isEmpty_iff.mp hE
    simp [addEmailsCore, hE, hnil, storeAdd]
  | false =>
    simp only [addEmailsCore, dedupPhase_eq]
    cases hfil : ((buildEntries pairs).filter fun e =>
        !(containsId st.entries e.id)).isEmpty with
    | true =>
      have hnil := List.isEmpty_iff.mp hfil
      simp [hE, hfil, hnil, storeAdd]
    | false =>
      simp [hE, hfil, foldl_storeAdd_flatten, chunk100_flatten]

/-- The collection after `add_emails`: the old store with the new entries
(those whose id was absent) inserted. -/
theorem addEmailsCore_entries (st : StoreState)
    (pairs : List (Email × Option (List ℚ))) (now : Nat) :
    (addEmailsCore st pairs now).1.entries
      = storeAdd st.entries
          ((buildEntries pairs).filter fun e => !(containsId st.entries e.id)) := by
  rw [addEmailsCore_closed]

/-- The counters reported by `add_emails`, in closed form. -/
theorem addEmailsCore_result (st : StoreState)
    (pairs : List (Email × Option (List ℚ))) (now : Nat) :
    (addEmailsCore st pairs now).2
      = ⟨pairs.countP (fun pe => pe.2.isNone),
         ((buildEntries pairs).filter fun e => containsId st.entries e.id).length,
         ((buildEntries pairs).filter fun e => !(containsId st.entries e.id)).length,
         !((buildEntries pairs).filter fun e => !(containsId st.entries e.id)).isEmpty⟩ := by
  rw [addEmailsCore_closed]

/-- The sync watermark after `add_emails`. -/
theorem addEmailsCore_syncDate (st : StoreState)
    (pairs : List (Email × Option (List ℚ))) (now : Nat) :
    (addEmailsCore st pairs now).1.syncDate
      = if ((buildEntries pairs).filter fun e =>
            !(containsId st.entries e.id)).isEmpty
        then st.syncDate else some now := by
  rw [addEmailsCore_closed]

/-- Filtering by existence of the id and by its negation partitions the
entry list. -/
theorem length_filter_contains_add (store l : List Entry) :
    (l.filter fun e => containsId store e.id).length
      + (l.filter fun e => !(containsId store e.id)).length = l.length := by
  induction l with
  | nil => rfl
  | cons e l ih =>
    cases hp : containsId store e.id <;> simp [List.filter_cons, hp] <;> omega

/-! ## Claim C1 — idempotent ingestion -/

/-- C1.  Calling `add_emails` twice with the same list is a no-op on the
second call: the state (collection and watermark alike) is unchanged, no
entry is inserted, so `member_count` is unchanged; and the first call
grows `member_count` by exactly the number of distinct ids (among the
records carrying embeddings) not already present. -/
theorem c1_idempotent_ingestion (st : StoreState)
    (pairs : List (Email × Option (List ℚ))) (now₁ now₂ : Nat) :
    (addEmailsCore (addEmailsCore st pairs now₁).1 pairs now₂).1
        = (addEmailsCore st pairs now₁).1
    ∧ (addEmailsCore (addEmailsCore st pairs now₁).1 pairs now₂).2.inserted = 0
    ∧ memberCount (addEmailsCore (addEmailsCore st pairs now₁).1 pairs now₂).1
        = memberCount (addEmailsCore st pairs now₁).1
    ∧ memberCount (addEmailsCore st pairs now₁).1
        = memberCount st
          + (((buildEntries pairs).map (·.id)).toFinset
              \ (st.entries.map (·.id)).toFinset).card := by
  have hall : ∀ e ∈ buildEntries pairs,
      containsId (addEmailsCore st pairs now₁).1.entries e.id = true := by
    intro e he
    rw [addEmailsCore_entries, containsId_storeAdd]
    cases hc : containsId st.entries e.id with
    | true => simp
    | false =>
      have hmem : e ∈ (buildEntries pairs).filter
          fun e => !(containsId st.entries e.id) :=
        List.mem_filter.mpr ⟨he, by simp [hc]⟩
      have hany : ((buildEntries pairs).filter
          fun e => !(containsId st.entries e.id)).any (·.id == e.id) = true :=
        List.any_eq_true.mpr ⟨e, hmem, by simp⟩
      simp [hany]
  have hfilnil : ((buildEntries pairs).filter fun e =>
      !(containsId (addEmailsCore st pairs now₁).1.entries e.id)) = [] := by
    apply List.filter_eq_nil_iff.mpr
    intro e he
    simp [hall e he]
  have hstate : (addEmailsCore (addEmailsCore st pairs now₁).1 pairs now₂).1
      = (addEmailsCore st pairs now₁).1 := by
    rw [addEmailsCore_closed]
    simp [hfilnil, storeAdd]
  refine ⟨hstate, ?_, by rw [hstate], ?_⟩
  · rw [addEmailsCore_result]
    simp [hfilnil]
  · rw [memberCount, memberCount, addEmailsCore_entries, storeAdd_length]
    congr 2
    ext x
    simp only [Finset.mem_sdiff, List.mem_toFinset, List.mem_map, List.mem_filter]
    constructor
    · rintro ⟨⟨e, ⟨he, _⟩, rfl⟩, hx⟩
      exact ⟨⟨e, he, rfl⟩, hx⟩
    · rintro ⟨⟨e, he, rfl⟩, hx⟩
      refine ⟨⟨e, ⟨he, ?_⟩, rfl⟩, hx⟩
      cases hc : containsId st.entries e.id with
      | true =>
        exfalso
        rcases (containsId_iff _ _).mp hc with ⟨e', he', hid⟩
        exact hx ⟨e', he', hid⟩
      | false => simp

/-! ## Claim C2 — dedup correctness -/

/-- C2.  On a call with `N` records carrying embeddings of which `M`
already exist in the collection, exactly `N − M` entries are handed to
`collection.add` (reported as inserted) and `M` are reported as skipped
duplicates; records without an embedding are counted separately; nothing
enters the store that is not an old member or built from a record with a
present embedding; and both phases work in batches of at most 100. -/
theorem c2_dedup_correctness (st : StoreState)
    (pairs : List (Email × Option (List ℚ))) (now : Nat) :
    (addEmailsCore st pairs now).2.duplicates
        = ((buildEntries pairs).filter fun e => containsId st.entries e.id).length
    ∧ (addEmailsCore st pairs now).2.inserted
        = ((buildEntries pairs).filter fun e => !(containsId st.entries e.id)).length
    ∧ (addEmailsCore st pairs now).2.inserted
        + (addEmailsCore st pairs now).2.duplicates
        = (buildEntries pairs).length
    ∧ (addEmailsCore st pairs now).2.skippedNoEmbedding
        = pairs.countP (fun pe => pe.2.isNone)
    ∧ (∀ en ∈ (addEmailsCore st pairs now).1.entries,
        en ∈ st.entries
        ∨ ∃ pe ∈ pairs, ∃ emb, pe.2 = some emb ∧ en = buildEntry pe.1 emb)
    ∧ (∀ b ∈ chunk100 (buildEntries pairs), b.length ≤ 100) := by
  refine ⟨by rw [addEmailsCore_result], by rw [addEmailsCore_result], ?_,
    by rw [addEmailsCore_result], ?_, ?_⟩
  · rw [addEmailsCore_result]
    have hsum := length_filter_contains_add st.entries (buildEntries pairs)
    dsimp only
    omega
  · intro en hen
    rw [addEmailsCore_entries] at hen
    rcases mem_storeAdd _ _ _ hen with h | h
    · exact Or.inl h
    · right
      have hment : en ∈ buildEntries pairs := List.mem_of_mem_filter h
      rcases List.mem_filterMap.mp hment with ⟨pe, hpe, hmap⟩
      rcases Option.map_eq_some'.mp hmap with ⟨emb, hemb, hbe⟩
      exact ⟨pe, hpe, emb, hemb, hbe.symm⟩
  · intro b hb
    exact chunk100_mem_length _ _ hb

/-- C2, witness: the claim instantiated at a store already holding
`sampleEmail` and a call carrying a duplicate, a new record, and a record
without embedding — one duplicate skipped, one inserted, one counted as
embedding-less. -/
theorem c2_dedup_correctness_witness :
    (addEmailsCore ⟨[buildEntry sampleEmail [1]], none⟩
        [(sampleEmail, some [1]), (sampleEmail2, some [2]), (sampleEmail2, none)]
        3).2.duplicates = 1
    ∧ (addEmailsCore ⟨[buildEntry sampleEmail [1]], none⟩
        [(sampleEmail, some [1]), (sampleEmail2, some [2]), (sampleEmail2, none)]
        3).2.inserted = 1
    ∧ (addEmailsCore ⟨[buildEntry sampleEmail [1]], none⟩
        [(sampleEmail, some [1]), (sampleEmail2, some [2]), (sampleEmail2, none)]
        3).2.skippedNoEmbedding = 1
    ∧ ((addEmailsCore ⟨[buildEntry sampleEmail [1]], none⟩
        [(sampleEmail, some [1]), (sampleEmail2, some [2]), (sampleEmail2, none)]
        3).2.inserted
      = (((buildEntries [(sampleEmail, some [1]), (sampleEmail2, some [2]),
            (sampleEmail2, none)]).filter
          fun e => !(containsId [buildEntry sampleEmail [1]] e.id))).length) :=
  ⟨by decide, by decide, by decide,
    (c2_dedup_correctness ⟨[buildEntry sampleEmail [1]], none⟩
      [(sampleEmail, some [1]), (sampleEmail2, some [2]), (sampleEmail2, none)]
      3).2.1⟩

/-! ## Claim C3 — watermark monotonicity -/

/-- C3.  Provided the clock does not run backwards (`now` is at least the
recorded watermark), `add_emails` never rolls the watermark back: a call
inserting nothing leaves the sync file unchanged, a call inserting at
least one record rewrites it to `now` (≥ the previous value), and
`update_last_sync_date` is invoked exactly when at least one record was
inserted. -/
theorem c3_watermark_monotonicity (st : StoreState)
    (pairs : List (Email × Option (List ℚ))) (now : Nat)
    (hnow : ∀ t, st.syncDate = some t → t ≤ now) :
    ((addEmailsCore st pairs now).2.inserted = 0 →
      (addEmailsCore st pairs now).1.syncDate = st.syncDate)
    ∧ (1 ≤ (addEmailsCore st pairs now).2.inserted →
      (addEmailsCore st pairs now).1.syncDate = some now)
    ∧ ((addEmailsCore st pairs now).2.syncUpdated = true ↔
      1 ≤ (addEmailsCore st pairs now).2.inserted)
    ∧ (∀ t t', st.syncDate = some t →
      (addEmailsCore st pairs now).1.syncDate = some t' → t ≤ t') := by
  have hres := addEmailsCore_result st pairs now
  have hsync := addEmailsCore_syncDate st pairs now
  cases hfil : ((buildEntries pairs).filter fun e =>
      !(containsId st.entries e.id)).isEmpty with
  | true =>
    have hnil := List.isEmpty_iff.mp hfil
    rw [hfil, if_pos rfl] at hsync
    refine ⟨fun _ => hsync, ?_, ?_, ?_⟩
    · intro h1
      rw [hres, hnil] at h1
      simp at h1
    · rw [hres, hfil, hnil]
      simp
    · intro t t' ht ht'
      rw [hsync, ht] at ht'
      injection ht' with h
      omega
  | false =>
    have hpos : 1 ≤ ((buildEntries pairs).filter fun e =>
        !(containsId st.entries e.id)).length := by
      have hne : ((buildEntries pairs).filter fun e =>
          !(containsId st.entries e.id)) ≠ [] := by
        intro hnil
        rw [hnil] at hfil
        simp at hfil
      have := List.length_pos.mpr hne
      omega
    rw [hfil] at hsync
    simp only [Bool.false_eq_true, if_false] at hsync
    refine ⟨?_, fun _ => hsync, ?_, ?_⟩
    · intro h0
      rw [hres] at h0
      simp only at h0
      omega
    · rw [hres, hfil]
      simpa using hpos
    · intro t t' ht ht'
      rw [hsync] at ht'
      injection ht' with h
      have := hnow t ht
      omega

/-- C3, witness: inserting one record into a store whose watermark is 5 at
time 7 rewrites the watermark to 7. -/
theorem c3_watermark_monotonicity_witness :
    (∀ t, (⟨[], some 5⟩ : StoreState).syncDate = some t → t ≤ 7)
    ∧ (addEmailsCore ⟨[], some 5⟩ [(sampleEmail, some [1])] 7).1.syncDate
        = some 7 :=
  ⟨fun t ht => by injection ht with h; omega,
    (c3_watermark_monotonicity ⟨[], some 5⟩ [(sampleEmail, some [1])] 7
      (fun t ht => by injection ht with h; omega)).2.1 (by decide)⟩

/-! ## Claim C10 — clearing preserves the watermark -/

/-- C10.  `clear_collection` deletes and recreates the collection (the
member count drops to 0) but leaves the separate sync-metadata file
untouched, so `get_last_sync_date` answers exactly as before. -/
theorem c10_clear_preserves_watermark (st : StoreState) :
    memberCount (clearCollection st) = 0
    ∧ (clearCollection st).syncDate = st.syncDate
    ∧ getLastSyncDate (clearCollection st) = getLastSyncDate st :=
  ⟨rfl, rfl, rfl⟩

/-! ## Claim C4 — index-error propagation -/

/-- C4, counterexample.  The claim asserts every index-backend failure in
`add_emails` **or `search`** propagates to the caller rather than being
absorbed into a normal return value such as an empty result list.  For
`search` this is false: `EmailVectorStore.search` wraps the whole query in
`try/except` and returns `[]` on any exception, so a backend failure is
indistinguishable from a legitimately empty result. -/
theorem c4_counterexample :
    vectorStoreSearch (Except.error "chroma backend unavailable") = []
    ∧ vectorStoreSearch (Except.error "chroma backend unavailable")
        = vectorStoreSearch (Except.ok []) :=
  ⟨rfl, rfl⟩

/-- C4, amended.  Backend failures during `add_emails` are re-raised and
propagate to the caller (whenever `collection.add` is actually reached,
i.e. some entry survives the dedup phase); backend failures during
`search` are caught and absorbed into the empty result list.  Neither
path retries. -/
theorem c4_error_propagation :
    (∀ (st : StoreState) (pairs : List (Email × Option (List ℚ))) (now : Nat),
      (dedupPhase st.entries (buildEntries pairs)).1 ≠ [] →
        addEmailsRun true st pairs now
          = Except.error "Error adding emails to vector store")
    ∧ (∀ msg : String, vectorStoreSearch (Except.error msg) = []) := by
  constructor
  · intro st pairs now hne
    have hE : (buildEntries pairs).isEmpty = false := by
      cases hE : (buildEntries pairs).isEmpty with
      | true =>
        exfalso
        apply hne
        rw [List.isEmpty_iff.mp hE]
        rfl
      | false => rfl
    have hdd : ((dedupPhase st.entries (buildEntries pairs)).1).isEmpty = false := by
      cases hdd : ((dedupPhase st.entries (buildEntries pairs)).1).isEmpty with
      | true => exact absurd (List.isEmpty_iff.mp hdd) hne
      | false => rfl
    simp [addEmailsRun, hE, hdd]
  · intro msg
    rfl

/-- C4, witness: a concrete call that reaches `collection.add` on a
failing backend propagates the error. -/
theorem c4_error_propagation_witness :
    (dedupPhase (⟨[], none⟩ : StoreState).entries
        (buildEntries [(sampleEmail, some [1])])).1 ≠ []
    ∧ addEmailsRun true ⟨[], none⟩ [(sampleEmail, some [1])] 7
        = Except.error "Error adding emails to vector store" :=
  ⟨by decide,
    c4_error_propagation.1 ⟨[], none⟩ [(sampleEmail, some [1])] 7 (by decide)⟩

/-! ## Claim C9 — score conversion and ordering -/

/-- The searcher's assembly loop is a `filterMap` over the index hits in
the index's order. -/
theorem searcherSearch_eq_filterMap (q : List ℚ) (lookup : String → Option String)
    (hits : List (String × ℚ × EmailMeta)) :
    searcherSearch (some q) lookup (Except.ok hits)
      = hits.filterMap (fun h => (lookup h.1).map
          fun body => (⟨h.1, body, 1 - h.2.1, h.2.1⟩ : SearchResultM)) := by
  suffices haux : ∀ (l : List (String × ℚ × EmailMeta)) (acc : List SearchResultM),
      l.foldl (fun acc h =>
        match lookup h.1 with
        | some body => acc ++ [⟨h.1, body, 1 - h.2.1, h.2.1⟩]
        | none => acc) acc
      = acc ++ l.filterMap (fun h => (lookup h.1).map
          fun body => (⟨h.1, body, 1 - h.2.1, h.2.1⟩ : SearchResultM)) by
    simpa [searcherSearch, vectorStoreSearch] using haux hits []
  intro l
  induction l with
  | nil => intro acc; simp
  | cons h l ih =>
    intro acc
    rw [List.foldl_cons]
    cases hl : lookup h.1 with
    | none => simp [hl, ih, List.filterMap_cons]
    | some body => simp [hl, ih, List.filterMap_cons]

/-- C9.  Every result carries `score = 1 - distance`; the result sequence
is a sub-sequence of the index hits in the index's order (hits whose
document lookup fails are dropped, nothing is re-ranked), hence ascending
index distances give ascending result distances; and when every lookup
succeeds the distances are inherited verbatim. -/
theorem c9_score_and_ordering (q : List ℚ) (lookup : String → Option String)
    (hits : List (String × ℚ × EmailMeta)) :
    (∀ r ∈ searcherSearch (some q) lookup (Except.ok hits),
      r.score = 1 - r.distance)
    ∧ ((searcherSearch (some q) lookup (Except.ok hits)).map
        (·.distance)).Sublist (hits.map fun h => h.2.1)
    ∧ ((hits.map fun h => h.2.1).Pairwise (· ≤ ·) →
      ((searcherSearch (some q) lookup (Except.ok hits)).map
        (·.distance)).Pairwise (· ≤ ·))
    ∧ ((∀ h ∈ hits, lookup h.1 ≠ none) →
      (searcherSearch (some q) lookup (Except.ok hits)).map (·.distance)
        = hits.map fun h => h.2.1) := by
  have heq := searcherSearch_eq_filterMap q lookup hits
  have hsub : ∀ (l : List (String × ℚ × EmailMeta)),
      ((l.filterMap (fun h => (lookup h.1).map
          fun body => (⟨h.1, body, 1 - h.2.1, h.2.1⟩ : SearchResultM))).map
        (·.distance)).Sublist (l.map fun h => h.2.1) := by
    intro l
    induction l with
    | nil => simp
    | cons h l ih =>
      cases hl : lookup h.1 with
      | none =>
        simp only [List.filterMap_cons, hl, List.map_cons]
        exact List.Sublist.cons _ ih
      | some body =>
        simp only [List.filterMap_cons, hl, Option.map_some', List.map_cons]
        exact List.Sublist.cons₂ _ ih
  have hfull : ∀ (l : List (String × ℚ × EmailMeta)),
      (∀ h ∈ l, lookup h.1 ≠ none) →
      ((l.filterMap (fun h => (lookup h.1).map
          fun body => (⟨h.1, body, 1 - h.2.1, h.2.1⟩ : SearchResultM))).map
        (·.distance)) = l.map fun h => h.2.1 := by
    intro l
    induction l with
    | nil => intro _; simp
    | cons h l ih =>
      intro hall
      cases hl : lookup h.1 with
      | none => exact absurd hl (hall h (List.mem_cons_self _ _))
      | some body =>
        simp only [List.filterMap_cons, hl, Option.map_some', List.map_cons]
        rw [ih (fun h' hh' => hall h' (List.mem_cons_of_mem _ hh'))]
  refine ⟨?_, ?_, ?_, ?_⟩
  · intro r hr
    rw [heq] at hr
    rcases List.mem_filterMap.mp hr with ⟨h, _, hmap⟩
    rcases Option.map_eq_some'.mp hmap with ⟨body, _, hbe⟩
    rw [← hbe]
  · rw [heq]
    exact hsub hits
  · intro hpair
    rw [heq]
    exact List.Pairwise.sublist (hsub hits) hpair
  · intro hall
    rw [heq]
    exact hfull hits hall

/-- C9, witness: two hits at distances 0 and 1 with all lookups
succeeding: the result distances are inherited verbatim and stay
ascending. -/
theorem c9_score_and_ordering_witness :
    (([("a", (0 : ℚ), (⟨"s", "f", "d", "t", "sn", [], false⟩ : EmailMeta)),
       ("b", (1 : ℚ), (⟨"s", "f", "d", "t", "sn", [], false⟩ : EmailMeta))].map
        fun h => h.2.1).Pairwise (· ≤ ·))
    ∧ ((searcherSearch (some [1])
        (fun i => if i = "a" then some "doc a" else some "doc b")
        (Except.ok
          [("a", (0 : ℚ), (⟨"s", "f", "d", "t", "sn", [], false⟩ : EmailMeta)),
           ("b", (1 : ℚ), (⟨"s", "f", "d", "t", "sn", [], false⟩ : EmailMeta))])).map
        (·.distance)).Pairwise (· ≤ ·)
    ∧ (searcherSearch (some [1])
        (fun i => if i = "a" then some "doc a" else some "doc b")
        (Except.ok
          [("a", (0 : ℚ), (⟨"s", "f", "d", "t", "sn", [], false⟩ : EmailMeta)),
           ("b", (1 : ℚ), (⟨"s", "f", "d", "t", "sn", [], false⟩ : EmailMeta))])).map
        (·.distance)
      = [("a", (0 : ℚ), (⟨"s", "f", "d", "t", "sn", [], false⟩ : EmailMeta)),
         ("b", (1 : ℚ), (⟨"s", "f", "d", "t", "sn", [], false⟩ : EmailMeta))].map
          fun h => h.2.1 :=
  ⟨by decide,
    (c9_score_and_ordering [1]
      (fun i => if i = "a" then some "doc a" else some "doc b")
      [("a", (0 : ℚ), (⟨"s", "f", "d", "t", "sn", [], false⟩ : EmailMeta)),
       ("b", (1 : ℚ), (⟨"s", "f", "d", "t", "sn", [], false⟩ : EmailMeta))]).2.2.1
      (by decide),
    (c9_score_and_ordering [1]
      (fun i => if i = "a" then some "doc a" else some "doc b")
      [("a", (0 : ℚ), (⟨"s", "f", "d", "t", "sn", [], false⟩ : EmailMeta)),
       ("b", (1 : ℚ), (⟨"s", "f", "d", "t", "sn", [], false⟩ : EmailMeta))]).2.2.2
      (by decide)⟩

/-! ## Claim C7 — resolver tie-break -/

/-- The selection fold started at `some b` returns a collection of the
list (or `b` itself) whose count dominates `b` and every listed
collection. -/
theorem pickBest_go :
    ∀ (ms : List CollInfo) (b : CollInfo),
      ∃ c, ms.foldl pickBestStep (some b) = some c
        ∧ (c = b ∨ c ∈ ms) ∧ b.count ≤ c.count ∧ ∀ d ∈ ms, d.count ≤ c.count := by
  intro ms
  induction ms with
  | nil =>
    intro b
    exact ⟨b, rfl, Or.inl rfl, Nat.le_refl _, by simp⟩
  | cons c0 ms ih =>
    intro b
    rw [List.foldl_cons]
    by_cases h : b.count < c0.count
    · have hstep : pickBestStep (some b) c0 = some c0 := by
        simp [pickBestStep, h]
      rw [hstep]
      rcases ih c0 with ⟨c, hc, hmem, hle, hall⟩
      refine ⟨c, hc, ?_, ?_, ?_⟩
      · rcases hmem with rfl | hm
        · exact Or.inr (List.mem_cons_self _ _)
        · exact Or.inr (List.mem_cons_of_mem _ hm)
      · omega
      · intro d hd
        rcases List.mem_cons.mp hd with rfl | hd'
        · exact hle
        · exact hall d hd'
    · have hstep : pickBestStep (some b) c0 = some b := by
        simp [pickBestStep, h]
      rw [hstep]
      rcases ih b with ⟨c, hc, hmem, hle, hall⟩
      refine ⟨c, hc, ?_, hle, ?_⟩
      · rcases hmem with rfl | hm
        · exact Or.inl rfl
        · exact Or.inr (List.mem_cons_of_mem _ hm)
      · intro d hd
        rcases List.mem_cons.mp hd with rfl | hd'
        · omega
        · exact hall d hd'

/-- C7.  Whenever more than one existing collection matches the supplied
provider/model constraints, the resolver's selection (stable descending
sort by email count, then take the head) picks a matching collection
whose `member_count` dominates every match. -/
theorem c7_resolver_tiebreak (provider model : Option (List Char))
    (colls : List CollInfo)
    (h2 : 2 ≤ (findMatchingCollections provider model colls).length) :
    ∃ c, pickBest (findMatchingCollections provider model colls) = some c
      ∧ c ∈ findMatchingCollections provider model colls
      ∧ ∀ d ∈ findMatchingCollections provider model colls,
          d.count ≤ c.count := by
  cases hms : findMatchingCollections provider model colls with
  | nil => rw [hms] at h2; simp at h2
  | cons m0 rest =>
    rcases pickBest_go rest m0 with ⟨c, hc, hmem, hle, hall⟩
    refine ⟨c, hc, ?_, ?_⟩
    · rcases hmem with rfl | hm
      · exact List.mem_cons_self _ _
      · exact List.mem_cons_of_mem _ hm
    · intro d hd
      rcases List.mem_cons.mp hd with rfl | hd'
      · exact hle
      · exact hall d hd'

/-- C7, witness: two ollama collections with counts 10 and 50 under an
unconstrained-model request — the 50-member collection is selected. -/
theorem c7_resolver_tiebreak_witness :
    2 ≤ (findMatchingCollections (some "ollama".toList) none
        [⟨"emails_ollama_m1", "ollama_m1".toList, 10⟩,
         ⟨"emails_ollama_m2", "ollama_m2".toList, 50⟩]).length
    ∧ pickBest (findMatchingCollections (some "ollama".toList) none
        [⟨"emails_ollama_m1", "ollama_m1".toList, 10⟩,
         ⟨"emails_ollama_m2", "ollama_m2".toList, 50⟩])
        = some ⟨"emails_ollama_m2", "ollama_m2".toList, 50⟩
    ∧ ∃ c, pickBest (findMatchingCollections (some "ollama".toList) none
          [⟨"emails_ollama_m1", "ollama_m1".toList, 10⟩,
           ⟨"emails_ollama_m2", "ollama_m2".toList, 50⟩]) = some c
        ∧ c ∈ findMatchingCollections (some "ollama".toList) none
            [⟨"emails_ollama_m1", "ollama_m1".toList, 10⟩,
             ⟨"emails_ollama_m2", "ollama_m2".toList, 50⟩]
        ∧ ∀ d ∈ findMatchingCollections (some "ollama".toList) none
            [⟨"emails_ollama_m1", "ollama_m1".toList, 10⟩,
             ⟨"emails_ollama_m2", "ollama_m2".toList, 50⟩],
            d.count ≤ c.count :=
  ⟨by decide, by decide,
    c7_resolver_tiebreak (some "ollama".toList) none
      [⟨"emails_ollama_m1", "ollama_m1".toList, 10⟩,
       ⟨"emails_ollama_m2", "ollama_m2".toList, 50⟩] (by decide)⟩

/-! ## Claim C8 — batch embedding shape and isolation -/

/-- Under the API contract (a successful call returns one vector per
input), each chunk contributes exactly as many slots as it has texts,
whether it succeeds or fails. -/
theorem chunkOutcome_length (api : List String → Option (List (List ℚ)))
    (hapi : ∀ b vs, api b = some vs → vs.length = b.length)
    (b : List String) : (chunkOutcome api b).length = b.length := by
  unfold chunkOutcome
  cases hb : api b with
  | none => simp
  | some vs => simp [hapi b vs hb]

/-- The openai batch loop is the concatenation of the per-chunk
outcomes, in chunk order. -/
theorem openaiEmbeddingsBatch_eq (api : List String → Option (List (List ℚ)))
    (texts : List String) :
    openaiEmbeddingsBatch api texts
      = ((chunk100 texts).map (chunkOutcome api)).flatten := by
  suffices haux : ∀ (bs : List (List String)) (acc : List (Option (List ℚ))),
      bs.foldl (fun acc batch =>
        match api batch with
        | some vecs => acc ++ vecs.map some
        | none => acc ++ List.replicate batch.length none) acc
      = acc ++ (bs.map (chunkOutcome api)).flatten by
    simpa [openaiEmbeddingsBatch] using haux (chunk100 texts) []
  intro bs
  induction bs with
  | nil => intro acc; simp
  | cons b bs ih =>
    intro acc
    rw [List.foldl_cons]
    cases hb : api b with
    | none => simp [hb, ih, chunkOutcome]
    | some vecs => simp [hb, ih, chunkOutcome]

/-- Slicing a concatenation at the summed lengths of the preceding
pieces recovers the piece. -/
theorem flatten_drop_take {α : Type} :
    ∀ (ls : List (List α)) (i : Nat) (hi : i < ls.length),
      (ls.flatten.drop (((ls.take i).map List.length).sum)).take
          (ls.get ⟨i, hi⟩).length
        = ls.get ⟨i, hi⟩ := by
  intro ls
  induction ls with
  | nil => intro i hi; exact absurd hi (Nat.not_lt_zero i)
  | cons l ls ih =>
    intro i hi
    cases i with
    | zero =>
      simp only [List.take_zero, List.map_nil, List.sum_nil, List.drop_zero,
        List.flatten_cons, List.get]
      exact List.take_left l ls.flatten
    | succ i =>
      have hi' : i < ls.length := Nat.lt_of_succ_lt_succ hi
      simp only [List.take_succ_cons, List.map_cons, List.sum_cons,
        List.flatten_cons, List.get]
      have hdrop : (l ++ ls.flatten).drop
          (l.length + (((ls.take i).map List.length).sum))
          = ls.flatten.drop (((ls.take i).map List.length).sum) := by
        rw [← List.drop_drop, List.drop_left]
      rw [hdrop]
      exact ih i hi'

/-- C8.  Batch embedding preserves length and order: the openai batch
output has one slot per input text; the slice of the output at chunk `i`
is exactly that chunk's own outcome — its vectors on success, all-`none`
on failure — independently of every other chunk; and the ollama batch
output is the pointwise map of the single-text embedder over the input,
in input order. -/
theorem c8_batch_shape (api : List String → Option (List (List ℚ)))
    (embedOne : String → Option (List ℚ)) (texts : List String)
    (hapi : ∀ b vs, api b = some vs → vs.length = b.length) :
    (openaiEmbeddingsBatch api texts).length = texts.length
    ∧ (∀ i (hi : i < (chunk100 texts).length),
        ((openaiEmbeddingsBatch api texts).drop
            ((((chunk100 texts).take i).map List.length).sum)).take
            ((chunk100 texts).get ⟨i, hi⟩).length
          = chunkOutcome api ((chunk100 texts).get ⟨i, hi⟩))
    ∧ (ollamaEmbeddingsBatch embedOne texts).length = texts.length
    ∧ ollamaEmbeddingsBatch embedOne texts = texts.map embedOne := by
  have holl : ollamaEmbeddingsBatch embedOne texts = texts.map embedOne := by
    suffices haux : ∀ (l : List String) (acc : List (Option (List ℚ))),
        l.foldl (fun acc t => acc ++ [embedOne t]) acc = acc ++ l.map embedOne by
      simpa [ollamaEmbeddingsBatch] using haux texts []
    intro l
    induction l with
    | nil => intro acc; simp
    | cons t l ih => intro acc; simp [List.foldl_cons, ih]
  have hlen : (openaiEmbeddingsBatch api texts).length = texts.length := by
    rw [openaiEmbeddingsBatch_eq]
    calc ((chunk100 texts).map (chunkOutcome api)).flatten.length
        = (((chunk100 texts).map (chunkOutcome api)).map List.length).sum :=
          List.length_flatten _
      _ = ((chunk100 texts).map List.length).sum := by
          rw [List.map_map]
          exact congrArg List.sum
            (List.map_congr_left (fun b _ => chunkOutcome_length api hapi b))
      _ = (chunk100 texts).flatten.length := (List.length_flatten _).symm
      _ = texts.length := by rw [chunk100_flatten]
  refine ⟨hlen, ?_, by rw [holl]; exact List.length_map _ _, holl⟩
  intro i hi
  have hi' : i < ((chunk100 texts).map (chunkOutcome api)).length := by
    simpa using hi
  have hslice := flatten_drop_take ((chunk100 texts).map (chunkOutcome api)) i hi'
  have hget : ((chunk100 texts).map (chunkOutcome api)).get ⟨i, hi'⟩
      = chunkOutcome api ((chunk100 texts).get ⟨i, hi⟩) := by
    rw [List.get_map]
  have hsum : ((((chunk100 texts).map (chunkOutcome api)).take i).map
        List.length).sum
      = (((chunk100 texts).take i).map List.length).sum := by
    rw [← List.map_take, List.map_map]
    exact congrArg List.sum
      (List.map_congr_left (fun b _ => chunkOutcome_length api hapi b))
  rw [hget, chunkOutcome_length api hapi, hsum] at hslice
  rw [openaiEmbeddingsBatch_eq]
  exact hslice

/-- C8, witness: a two-text batch through an always-succeeding API has
two slots, and the ollama loop maps the single-text embedder (which
fails on the first text) pointwise. -/
theorem c8_batch_shape_witness :
    (∀ (b : List String) (vs : List (List ℚ)),
        (fun b => some (b.map fun _ => [(1 : ℚ)])) b = some vs →
          vs.length = b.length)
    ∧ (openaiEmbeddingsBatch (fun b => some (b.map fun _ => [(1 : ℚ)]))
        ["x", "y"]).length = 2
    ∧ ollamaEmbeddingsBatch (fun t => if t = "x" then none else some [2])
        ["x", "y"]
      = ["x", "y"].map (fun t => if t = "x" then none else some [2]) := by
  have hpf : ∀ (b : List String) (vs : List (List ℚ)),
      (fun b => some (b.map fun _ => [(1 : ℚ)])) b = some vs →
        vs.length = b.length := by
    intro b vs h
    injection h with h'
    rw [← h']
    simp
  exact ⟨hpf,
    (c8_batch_shape (fun b => some (b.map fun _ => [(1 : ℚ)]))
      (fun t => if t = "x" then none else some [2]) ["x", "y"] hpf).1,
    (c8_batch_shape (fun b => some (b.map fun _ => [(1 : ℚ)]))
      (fun t => if t = "x" then none else some [2]) ["x", "y"] hpf).2.2.2⟩

end SemanticMail
